import Mathlib

set_option autoImplicit false
set_option maxRecDepth 8000

/-!
Verification of the remote routing core of the `dir` record directory:
the GossipSub label-announcement codec (`messages.go`), the gossip
manager receive loop (`manager.go`), and the remote routing operations
(publish, search, DHT provider reconciliation, metadata refresh).

Bytes on the wire and in the datastore are modelled as lists of
characters.  External collaborators (the JSON codec of the standard
library, the DHT, the gossip router, `StoreAPI.Pull`) are modelled
explicitly: JSON encoding is modelled character by character in its
canonical form (field order as in the Go structs, `"` and `\`
escaping), and the outcomes of network calls are passed in as data.
-/

namespace DirSpec

/-- Byte strings are modelled as lists of characters. -/
abbrev Str := List Char

/-- A `time.Time` value, modelled by its RFC-3339 textual representation.
Go's formatting of a time value is injective, so the representation is a
faithful stand-in for the time itself. -/
structure GoTime where
  rfc3339 : Str
deriving DecidableEq, Repr

/-- The representation of Go's zero time `0001-01-01T00:00:00Z`. -/
def zeroTimeRepr : Str := "0001-01-01T00:00:00Z".data

/-- Model of Go's `time.Time.IsZero`. -/
def GoTime.isZero (t : GoTime) : Bool := t.rfc3339 = zeroTimeRepr

/-! ### Character-level JSON building blocks

Model of the parts of `encoding/json` used by the repository, in
canonical form: object fields in struct order, no whitespace, strings
escaped by prefixing `"` and `\` with a backslash. -/

/-- JSON string escaping: `"` and `\` are escaped with a backslash. -/
def escString : Str → Str
  | [] => []
  | c :: rest =>
    if c = '"' ∨ c = '\\' then '\\' :: c :: escString rest
    else c :: escString rest

/-- Parse the body of a JSON string; the `Bool` records whether the
previous character was an unconsumed backslash.  Returns the unescaped
content and the input after the closing quote. -/
def parseJStringAux : Bool → Str → Option (Str × Str)
  | _, [] => none
  | true, c :: rest => (parseJStringAux false rest).map (fun p => (c :: p.1, p.2))
  | false, c :: rest =>
    if c = '\\' then parseJStringAux true rest
    else if c = '"' then some ([], rest)
    else (parseJStringAux false rest).map (fun p => (c :: p.1, p.2))

/-- Parse the body of a JSON string (the opening quote has already been
consumed). -/
def parseJString (s : Str) : Option (Str × Str) := parseJStringAux false s

/-- Strip an expected literal prefix, returning the rest of the input. -/
def stripLit : Str → Str → Option Str
  | [], s => some s
  | _ :: _, [] => none
  | c :: cs, d :: ds => if c = d then stripLit cs ds else none

theorem stripLit_append (lit rest : Str) : stripLit lit (lit ++ rest) = some rest := by
  induction lit with
  | nil => rfl
  | cons c cs ih => simp [stripLit, ih]

theorem parseJString_escString (s rest : Str) :
    parseJString (escString s ++ '"' :: rest) = some (s, rest) := by
  unfold parseJString
  induction s with
  | nil =>
      rw [escString, List.nil_append, parseJStringAux]
      rw [if_neg (by decide : ¬('"' : Char) = '\\'), if_pos rfl]
  | cons c s ih =>
      by_cases h : c = '"' ∨ c = '\\'
      · rw [escString, if_pos h]
        simp only [List.cons_append]
        rw [parseJStringAux, if_pos rfl, parseJStringAux, ih]
        rfl
      · push_neg at h
        rw [escString, if_neg (by tauto : ¬(c = '"' ∨ c = '\\'))]
        simp only [List.cons_append]
        rw [parseJStringAux, if_neg h.2, if_neg h.1, ih]
        rfl

/-- Parsed strings leave a strictly shorter remainder (the closing quote
is always consumed). -/
theorem parseJStringAux_length (s : Str) : ∀ (b : Bool) (content rest : Str),
    parseJStringAux b s = some (content, rest) → rest.length < s.length := by
  induction s with
  | nil => intro b c r h; cases b <;> simp [parseJStringAux] at h
  | cons c cs ih =>
      intro b content rest h
      cases b
      · rw [parseJStringAux] at h
        by_cases h1 : c = '\\'
        · rw [if_pos h1] at h
          have := ih true content rest h
          simp only [List.length_cons]
          omega
        · rw [if_neg h1] at h
          by_cases h2 : c = '"'
          · rw [if_pos h2] at h
            simp only [Option.some.injEq, Prod.mk.injEq] at h
            simp [← h.2]
          · rw [if_neg h2] at h
            rw [Option.map_eq_some'] at h
            obtain ⟨p, hp, he⟩ := h
            have := ih false p.1 p.2 (by simpa using hp)
            have : rest = p.2 := by
              have := congrArg Prod.snd he
              simpa using this.symm
            simp only [this, List.length_cons]
            omega
      · rw [parseJStringAux] at h
        rw [Option.map_eq_some'] at h
        obtain ⟨p, hp, he⟩ := h
        have h1 := ih false p.1 p.2 (by simpa using hp)
        have h2 : rest = p.2 := by
          have := congrArg Prod.snd he
          simpa using this.symm
        simp only [h2, List.length_cons]
        omega

theorem parseJString_length {s content rest : Str}
    (h : parseJString s = some (content, rest)) : rest.length < s.length :=
  parseJStringAux_length s false content rest h

/-- Encode a non-empty list of strings as the items of a JSON array,
including the closing bracket (the opening bracket is emitted by
`encodeStrList`). -/
def encodeItems : List Str → Str
  | [] => [']']
  | l :: ls =>
    '"' :: (escString l ++ '"' :: (if ls.isEmpty then [']'] else ',' :: encodeItems ls))

/-- Model of `encoding/json` for a `[]string` value.  A `nil` Go slice
encodes as `null`; the model does not distinguish `nil` from an empty
slice and encodes the empty list the same way. -/
def encodeStrList (ls : List Str) : Str :=
  if ls.isEmpty then "null".data else '[' :: encodeItems ls

/-- Parse the items of a JSON array of strings, starting at the first
item (the opening bracket has been consumed, the array is non-empty). -/
def parseItems (s : Str) : Option (List Str × Str) :=
  match s with
  | [] => none
  | c :: rest =>
    if c = '"' then
      match hp : parseJString rest with
      | none => none
      | some (item, r) =>
        match r with
        | [] => none
        | d :: r2 =>
          if d = ',' then
            match parseItems r2 with
            | some p => some (item :: p.1, p.2)
            | none => none
          else if d = ']' then some ([item], r2)
          else none
    else none
termination_by s.length
decreasing_by
  have := parseJString_length hp
  simp only [List.length_cons] at *
  omega

/-- Parse a JSON value of type `[]string`: either `null` or an array of
strings. -/
def parseStrList (s : Str) : Option (List Str × Str) :=
  match stripLit "null".data s with
  | some r => some ([], r)
  | none =>
    match s with
    | [] => none
    | c :: rest =>
      if c = '[' then
        match rest with
        | [] => none
        | d :: r2 => if d = ']' then some ([], r2) else parseItems rest
      else none

theorem parseItems_encodeItems (ls : List Str) (hne : ls ≠ []) (rest : Str) :
    parseItems (encodeItems ls ++ rest) = some (ls, rest) := by
  induction ls with
  | nil => exact absurd rfl hne
  | cons l ls ih =>
      rw [encodeItems]
      by_cases h : ls.isEmpty
      · rw [if_pos h]
        simp only [List.cons_append, List.append_assoc, List.nil_append]
        rw [parseItems.eq_def]
        simp only [reduceIte]
        split
        · rename_i hp
          rw [parseJString_escString] at hp
          cases hp
        · rename_i item r hp
          rw [parseJString_escString] at hp
          injection hp with hp
          injection hp with h1 h2
          subst h1
          subst h2
          simp only [reduceIte]
          rw [if_neg (by decide : ¬(']' : Char) = ',')]
          rw [List.isEmpty_iff.mp h]
      · rw [if_neg h]
        simp only [List.cons_append, List.append_assoc]
        rw [parseItems.eq_def]
        simp only [reduceIte]
        split
        · rename_i hp
          rw [parseJString_escString] at hp
          cases hp
        · rename_i item r hp
          rw [parseJString_escString] at hp
          injection hp with hp
          injection hp with h1 h2
          subst h1
          subst h2
          simp only [reduceIte]
          rw [ih (by simpa [List.isEmpty_iff] using h)]

theorem parseStrList_encodeStrList (ls : List Str) (rest : Str) :
    parseStrList (encodeStrList ls ++ rest) = some (ls, rest) := by
  by_cases h : ls.isEmpty
  · rw [encodeStrList, if_pos h, List.isEmpty_iff.mp h, parseStrList.eq_def, stripLit_append]
  · rw [encodeStrList, if_neg h]
    match ls, h with
    | l :: ls, _ =>
      obtain ⟨tl, htl⟩ : ∃ tl, encodeItems (l :: ls) = '"' :: tl := ⟨_, by rw [encodeItems]⟩
      rw [parseStrList.eq_def]
      simp only [List.cons_append, htl]
      rw [show stripLit ['n', 'u', 'l', 'l'] ('[' :: '"' :: (tl ++ rest)) = none by
        rw [stripLit, if_neg (by decide : ¬('n' : Char) = '[')]]
      simp only [reduceIte]
      rw [if_neg (by decide : ¬('"' : Char) = ']')]
      rw [show ('"' :: (tl ++ rest) : Str) = encodeItems (l :: ls) ++ rest by
        rw [htl, List.cons_append]]
      exact parseItems_encodeItems (l :: ls) (by simp) rest

theorem stripLit_self (l : Str) : stripLit l l = some [] := by
  have := stripLit_append l []
  simpa using this

/-! ### The wire format: `LabelAnnouncement` (messages.go)

`LabelAnnouncement` is the GossipSub wire structure with JSON fields
`cid`, `peer_id`, `labels`, `timestamp`, in that order. -/

/-- The wire format for label announcements (messages.go, `LabelAnnouncement`). -/
structure LabelAnnouncement where
  CID : Str
  PeerID : Str
  Labels : List Str
  Timestamp : GoTime
deriving DecidableEq, Repr

/-- Modelled from the spec: the protocol constant `MaxMessageSize` from
constants.go (not under src/).  The spec fixes it as a non-configurable
protocol constant but does not give its value; the claims only use it
symbolically, so a representative value is chosen. -/
def MaxMessageSize : Nat := 4096

/-- Modelled from the spec: the protocol constant
`MaxLabelsPerAnnouncement` from constants.go (not under src/). -/
def MaxLabelsPerAnnouncement : Nat := 100

/-- Opening literal of the canonical JSON encoding: `{"cid":"`. -/
def annLit1 : Str := "\x7b\"cid\":\"".data

/-- Literal between the cid and peer_id fields: `","peer_id":"` without
its leading quote (that quote is consumed as the cid string
terminator). -/
def annLit2 : Str := ",\"peer_id\":\"".data

/-- Literal before the labels value: `,"labels":`. -/
def annLit3 : Str := ",\"labels\":".data

/-- Literal before the timestamp value: `,"timestamp":"`. -/
def annLit4 : Str := ",\"timestamp\":\"".data

/-- Closing literal: the final right brace. -/
def annLit5 : Str := ['\x7d']

/-- Model of `json.Marshal` on a `LabelAnnouncement`: the canonical
encoding with fields in struct order. -/
def jsonEncodeAnnouncement (a : LabelAnnouncement) : Str :=
  annLit1 ++ (escString a.CID ++ '"' ::
    (annLit2 ++ (escString a.PeerID ++ '"' ::
      (annLit3 ++ (encodeStrList a.Labels ++
        (annLit4 ++ (escString a.Timestamp.rfc3339 ++ '"' :: annLit5)))))))

/-- Model of `json.Unmarshal` into a `LabelAnnouncement`: accepts the
canonical encodings produced by `jsonEncodeAnnouncement`. -/
def jsonDecodeAnnouncement (data : Str) : Option LabelAnnouncement :=
  (stripLit annLit1 data).bind fun r1 =>
  (parseJString r1).bind fun p1 =>
  (stripLit annLit2 p1.2).bind fun r3 =>
  (parseJString r3).bind fun p2 =>
  (stripLit annLit3 p2.2).bind fun r5 =>
  (parseStrList r5).bind fun p3 =>
  (stripLit annLit4 p3.2).bind fun r7 =>
  (parseJString r7).bind fun p4 =>
  (stripLit annLit5 p4.2).bind fun r9 =>
  if r9.isEmpty then some ⟨p1.1, p2.1, p3.1, ⟨p4.1⟩⟩ else none

theorem jsonDecode_jsonEncode (a : LabelAnnouncement) :
    jsonDecodeAnnouncement (jsonEncodeAnnouncement a) = some a := by
  simp only [jsonEncodeAnnouncement, jsonDecodeAnnouncement,
    stripLit_append, Option.some_bind, parseJString_escString,
    parseStrList_encodeStrList, stripLit_self, List.isEmpty_nil, if_true]

/-! ### The storage value: `LabelMetadata`

Modelled from the spec: the `labels.LabelMetadata` storage value (the
`labels` package is not under src/) is `{ timestamp, last_seen }`,
JSON-encoded with deterministic field order. -/

/-- The storage value for an enhanced label key: announcement timestamp
and local last-seen time. -/
structure LabelMetadata where
  Timestamp : GoTime
  LastSeen : GoTime
deriving DecidableEq, Repr

/-- Opening literal of the metadata encoding: `{"timestamp":"`. -/
def lmLit1 : Str := "\x7b\"timestamp\":\"".data

/-- Literal between the metadata fields: `,"last_seen":"` (the previous
quote is consumed as the timestamp terminator). -/
def lmLit2 : Str := ",\"last_seen\":\"".data

/-- Model of `json.Marshal` on a `LabelMetadata`. -/
def encodeLabelMetadata (m : LabelMetadata) : Str :=
  lmLit1 ++ (escString m.Timestamp.rfc3339 ++ '"' ::
    (lmLit2 ++ (escString m.LastSeen.rfc3339 ++ '"' :: annLit5)))

/-- Model of `json.Unmarshal` into a `LabelMetadata`. -/
def decodeLabelMetadata (v : Str) : Option LabelMetadata :=
  (stripLit lmLit1 v).bind fun r1 =>
  (parseJString r1).bind fun p1 =>
  (stripLit lmLit2 p1.2).bind fun r2 =>
  (parseJString r2).bind fun p2 =>
  (stripLit annLit5 p2.2).bind fun r3 =>
  if r3.isEmpty then some ⟨⟨p1.1⟩, ⟨p2.1⟩⟩ else none

theorem decodeLM_encodeLM (m : LabelMetadata) :
    decodeLabelMetadata (encodeLabelMetadata m) = some m := by
  simp only [encodeLabelMetadata, decodeLabelMetadata,
    stripLit_append, Option.some_bind, parseJString_escString,
    stripLit_self, List.isEmpty_nil, if_true]

/-! ### Validate / Marshal / Unmarshal (messages.go) -/

/-- `LabelAnnouncement.Validate` (messages.go lines 52-74): rejects a
missing CID or PeerID, an empty or oversized label list, and a zero
timestamp. -/
def LabelAnnouncement.Validate (a : LabelAnnouncement) : Except Str Unit :=
  if a.CID = [] then .error "missing CID".data
  else if a.PeerID = [] then .error "missing PeerID".data
  else if a.Labels.length = 0 then .error "no labels provided".data
  else if a.Labels.length > MaxLabelsPerAnnouncement then .error "too many labels".data
  else if a.Timestamp.isZero then .error "missing timestamp".data
  else .ok ()

/-- `LabelAnnouncement.Marshal` (messages.go lines 77-89): JSON-encode,
then reject encodings larger than `MaxMessageSize`. -/
def LabelAnnouncement.Marshal (a : LabelAnnouncement) : Except Str Str :=
  let data := jsonEncodeAnnouncement a
  if data.length > MaxMessageSize then .error "announcement exceeds maximum size".data
  else .ok data

/-- `UnmarshalLabelAnnouncement` (messages.go lines 93-110): size check,
JSON decode, then `Validate`. -/
def UnmarshalLabelAnnouncement (data : Str) : Except Str LabelAnnouncement :=
  if data.length > MaxMessageSize then .error "announcement exceeds maximum size".data
  else
    match jsonDecodeAnnouncement data with
    | none => .error "failed to unmarshal label announcement".data
    | some ann =>
      match ann.Validate with
      | .error e => .error e
      | .ok _ => .ok ann

/-! ### The datastore and the enhanced-key schema

The keyed byte store is an association list; `put` is an upsert that
replaces in place, `query` is a namespace scan.  Keys are path strings
`/{namespace}/{label-tail}/{cid}/{peer}`. -/

/-- The keyed byte store. -/
abbrev Datastore := List (Str × Str)

/-- Model of `Datastore.Get`: first binding for the key. -/
def dsGet : Datastore → Str → Option Str
  | [], _ => none
  | (k', v) :: rest, k => if k' = k then some v else dsGet rest k

/-- Whether the store holds a binding for the key. -/
def dsHas : Datastore → Str → Bool
  | [], _ => false
  | (k', _) :: rest, k => if k' = k then true else dsHas rest k

/-- Replace every binding of the key in place. -/
def dsReplace : Datastore → Str → Str → Datastore
  | [], _, _ => []
  | (k', v') :: rest, k, v =>
    if k' = k then (k, v) :: dsReplace rest k v else (k', v') :: dsReplace rest k v

/-- Model of `Datastore.Put`: unconditional upsert, preserving scan
order for existing keys and appending new keys. -/
def dsPut (st : Datastore) (k v : Str) : Datastore :=
  if dsHas st k then dsReplace st k v else st ++ [(k, v)]

/-- Split a path string at `/` separators. -/
def splitSegsAux : Str → Str → List Str
  | acc, [] => [acc.reverse]
  | acc, c :: rest =>
    if c = '/' then acc.reverse :: splitSegsAux [] rest else splitSegsAux (c :: acc) rest

/-- The `/`-separated segments of a key. -/
def splitSegs (s : Str) : List Str := splitSegsAux [] s

/-- Join segments into a path with a leading separator. -/
def joinSlash : List Str → Str
  | [] => []
  | seg :: rest => '/' :: (seg ++ joinSlash rest)

/-- Modelled from the spec: the closed set of label namespaces
{skills, domains, modules, locators} (the `labels` package is not under
src/). -/
def namespaceNames : List Str :=
  ["skills".data, "domains".data, "modules".data, "locators".data]

/-- Whether a key lies under a namespace prefix `/{ns}/`: its first
segment is empty (leading slash), its second is the namespace, and at
least one segment follows. -/
def keyInNamespace (ns : Str) (k : Str) : Bool :=
  match splitSegs k with
  | [] :: n :: _ :: _ => decide (n = ns)
  | _ => false

/-- Modelled from the spec: `BuildEnhancedLabelKey(label, cid, peer)`
(not under src/) composes the key `{label}/{cid}/{peer}` where the
label already carries its namespace prefix. -/
def BuildEnhancedLabelKey (label cid peer : Str) : Str :=
  label ++ '/' :: (cid ++ '/' :: peer)

/-- Modelled from the spec: `ParseEnhancedLabelKey(key)` (not under
src/) splits on the path separator and fails for keys that do not begin
with a known namespace or whose tail cannot be partitioned into a
non-empty label path followed by `{cid}/{peer}`.  Returns
`(label, cid, peer)`. -/
def ParseEnhancedLabelKey (k : Str) : Option (Str × Str × Str) :=
  match splitSegs k with
  | [] :: n :: rest =>
    if namespaceNames.contains n then
      match rest.reverse with
      | peer :: cid :: labelRev =>
        if labelRev.isEmpty then none
        else some (joinSlash (n :: labelRev.reverse), cid, peer)
      | _ => none
    else none
  | _ => none

/-- A processed namespace entry (`NamespaceEntry` in the routing
source). -/
structure NamespaceEntry where
  Namespace : Str
  Key : Str
  Value : Str
deriving DecidableEq, Repr

/-- Model of `Datastore.Query` with a namespace prefix. -/
def dsQuery (st : Datastore) (ns : Str) : List (Str × Str) :=
  st.filter (fun p => keyInNamespace ns p.1)

/-- Scan the given namespaces in order, draining each prefix query. -/
def scanEntries (st : Datastore) : List Str → List NamespaceEntry
  | [] => []
  | ns :: rest => ((dsQuery st ns).map (fun p => ⟨ns, p.1, p.2⟩)) ++ scanEntries st rest

/-- `QueryAllNamespaces` (routing source): queries all label namespaces
and returns processed entries; a cancelled context aborts with an
error.  The cancellation state is passed as a boolean. -/
def QueryAllNamespaces (cancelled : Bool) (st : Datastore) : Except Str (List NamespaceEntry) :=
  if cancelled then .error "namespace query canceled".data
  else .ok (scanEntries st namespaceNames)

/-! #### Store lemmas -/

theorem dsGet_dsReplace_self (st : Datastore) (k v : Str) (h : dsHas st k = true) :
    dsGet (dsReplace st k v) k = some v := by
  induction st with
  | nil => simp [dsHas] at h
  | cons p rest ih =>
      obtain ⟨k', v'⟩ := p
      by_cases hk : k' = k
      · rw [dsReplace, if_pos hk, dsGet, if_pos rfl]
      · rw [dsHas, if_neg hk] at h
        rw [dsReplace, if_neg hk, dsGet, if_neg hk]
        exact ih h

theorem dsGet_dsPut_self (st : Datastore) (k v : Str) :
    dsGet (dsPut st k v) k = some v := by
  rw [dsPut]
  by_cases h : dsHas st k
  · rw [if_pos h]
    exact dsGet_dsReplace_self st k v h
  · rw [if_neg h]
    induction st with
    | nil => simp [dsGet]
    | cons p rest ih =>
        obtain ⟨k', v'⟩ := p
        by_cases hk : k' = k
        · exact absurd (by rw [dsHas, if_pos hk]) h
        · rw [List.cons_append, dsGet, if_neg hk]
          exact ih (by rw [dsHas, if_neg hk] at h; exact h)

theorem dsGet_dsReplace_ne (st : Datastore) (k v k' : Str) (h : k' ≠ k) :
    dsGet (dsReplace st k v) k' = dsGet st k' := by
  induction st with
  | nil => rfl
  | cons p rest ih =>
      obtain ⟨k2, v2⟩ := p
      by_cases hk : k2 = k
      · rw [dsReplace, if_pos hk, dsGet, if_neg (fun he => h he.symm), dsGet, hk,
          if_neg (fun he => h he.symm)]
        exact ih
      · rw [dsReplace, if_neg hk, dsGet, dsGet]
        by_cases h2 : k2 = k'
        · rw [if_pos h2, if_pos h2]
        · rw [if_neg h2, if_neg h2]
          exact ih

theorem dsGet_dsPut_ne (st : Datastore) (k v k' : Str) (h : k' ≠ k) :
    dsGet (dsPut st k v) k' = dsGet st k' := by
  rw [dsPut]
  by_cases hh : dsHas st k
  · rw [if_pos hh]
    exact dsGet_dsReplace_ne st k v k' h
  · rw [if_neg hh]
    induction st with
    | nil => simp [dsGet, Ne.symm h]
    | cons p rest ih =>
        obtain ⟨k2, v2⟩ := p
        rw [List.cons_append, dsGet, dsGet]
        by_cases h2 : k2 = k'
        · rw [if_pos h2, if_pos h2]
        · rw [if_neg h2, if_neg h2]
          exact ih (by intro hc; exact hh (by rw [dsHas]; split <;> simp_all [dsHas]))

theorem mem_dsReplace_of_ne {st : Datastore} {k' v' : Str} (k v : Str)
    (hmem : (k', v') ∈ st) (hne : k' ≠ k) : (k', v') ∈ dsReplace st k v := by
  induction st with
  | nil => simp at hmem
  | cons p rest ih =>
      obtain ⟨k2, v2⟩ := p
      rw [dsReplace]
      rcases List.mem_cons.mp hmem with heq | hmem'
      · injection heq with h1 h2
        subst h1
        subst h2
        rw [if_neg hne]
        exact List.mem_cons_self _ _
      · split <;> exact List.mem_cons_of_mem _ (ih hmem')

theorem mem_dsPut_of_ne {st : Datastore} {k' v' : Str} (k v : Str)
    (hmem : (k', v') ∈ st) (hne : k' ≠ k) : (k', v') ∈ dsPut st k v := by
  rw [dsPut]
  split
  · exact mem_dsReplace_of_ne k v hmem hne
  · exact List.mem_append_left _ hmem

theorem mem_dsReplace_elim {st : Datastore} {k v k' v' : Str}
    (h : (k', v') ∈ dsReplace st k v) : (k', v') ∈ st ∨ k' = k := by
  induction st with
  | nil => simp [dsReplace] at h
  | cons p rest ih =>
      obtain ⟨k2, v2⟩ := p
      rw [dsReplace] at h
      split at h
      · rcases List.mem_cons.mp h with heq | h'
        · right
          exact ((Prod.mk.injEq _ _ _ _).mp heq).1
        · rcases ih h' with hm | he
          · exact Or.inl (List.mem_cons_of_mem _ hm)
          · exact Or.inr he
      · rcases List.mem_cons.mp h with heq | h'
        · exact Or.inl (List.mem_cons.mpr (Or.inl heq))
        · rcases ih h' with hm | he
          · exact Or.inl (List.mem_cons_of_mem _ hm)
          · exact Or.inr he

theorem mem_dsPut_elim {st : Datastore} {k v k' v' : Str}
    (h : (k', v') ∈ dsPut st k v) : (k', v') ∈ st ∨ k' = k := by
  rw [dsPut] at h
  split at h
  · exact mem_dsReplace_elim h
  · rcases List.mem_append.mp h with hm | hm
    · exact Or.inl hm
    · right
      simpa using ((Prod.mk.injEq _ _ _ _).mp (List.mem_singleton.mp hm)).1

theorem keys_dsReplace (st : Datastore) (k v : Str) :
    (dsReplace st k v).map Prod.fst = st.map Prod.fst := by
  induction st with
  | nil => rfl
  | cons p rest ih =>
      obtain ⟨k2, v2⟩ := p
      rw [dsReplace]
      split
      · rename_i hk
        simp [ih, hk]
      · simp [ih]

theorem not_mem_keys_of_not_dsHas {st : Datastore} {k : Str}
    (h : dsHas st k = false) : k ∉ st.map Prod.fst := by
  induction st with
  | nil => simp
  | cons p rest ih =>
      obtain ⟨k2, v2⟩ := p
      rw [dsHas] at h
      split at h
      · cases h
      · rename_i hne
        simp only [List.map_cons, List.mem_cons]
        rintro (he | hm)
        · exact hne he.symm
        · exact ih h hm

theorem keys_dsPut_nodup {st : Datastore} (k v : Str)
    (h : (st.map Prod.fst).Nodup) : ((dsPut st k v).map Prod.fst).Nodup := by
  rw [dsPut]
  split
  · rw [keys_dsReplace]
    exact h
  · rename_i hh
    rw [List.map_append]
    simp only [List.map_cons, List.map_nil]
    rw [List.nodup_append]
    refine ⟨h, List.nodup_singleton _, ?_⟩
    intro a ha hb
    have : a = k := by simpa using hb
    exact not_mem_keys_of_not_dsHas (by simpa using hh) (this ▸ ha)

/-! #### Scanner lemmas -/

theorem mem_scanEntries_elim {st : Datastore} {nss : List Str} {e : NamespaceEntry}
    (h : e ∈ scanEntries st nss) :
    (e.Key, e.Value) ∈ st ∧ keyInNamespace e.Namespace e.Key = true ∧ e.Namespace ∈ nss := by
  induction nss with
  | nil => simp [scanEntries] at h
  | cons ns rest ih =>
      rw [scanEntries] at h
      rcases List.mem_append.mp h with hm | hm
      · obtain ⟨p, hp, he⟩ := List.mem_map.mp hm
        obtain ⟨hmem, hns⟩ := List.mem_filter.mp hp
        subst he
        exact ⟨hmem, hns, List.mem_cons_self _ _⟩
      · obtain ⟨h1, h2, h3⟩ := ih hm
        exact ⟨h1, h2, List.mem_cons_of_mem _ h3⟩

theorem mem_scanEntries_intro {st : Datastore} {nss : List Str} {ns k v : Str}
    (hmem : (k, v) ∈ st) (hns : keyInNamespace ns k = true) (hin : ns ∈ nss) :
    (⟨ns, k, v⟩ : NamespaceEntry) ∈ scanEntries st nss := by
  induction nss with
  | nil => simp at hin
  | cons ns' rest ih =>
      rw [scanEntries]
      rcases List.mem_cons.mp hin with he | hin'
      · subst he
        exact List.mem_append_left _ (List.mem_map.mpr
          ⟨(k, v), List.mem_filter.mpr ⟨hmem, hns⟩, rfl⟩)
      · exact List.mem_append_right _ (ih hin')

theorem keyInNamespace_unique {ns1 ns2 k : Str}
    (h1 : keyInNamespace ns1 k = true) (h2 : keyInNamespace ns2 k = true) : ns1 = ns2 := by
  unfold keyInNamespace at h1 h2
  split at h1
  · rename_i segs n a b heq
    rw [heq] at h2
    exact (of_decide_eq_true h1).symm.trans (of_decide_eq_true h2)
  · cases h1

theorem scanEntries_keys_nodup {st : Datastore} {nss : List Str}
    (hst : (st.map Prod.fst).Nodup) (hnss : nss.Nodup) :
    ((scanEntries st nss).map NamespaceEntry.Key).Nodup := by
  induction nss with
  | nil => simp [scanEntries]
  | cons ns rest ih =>
      rw [scanEntries, List.map_append, List.nodup_append]
      refine ⟨?_, ih (List.Nodup.of_cons hnss), ?_⟩
      · have hsub : ((dsQuery st ns).map (fun p => (⟨ns, p.1, p.2⟩ : NamespaceEntry))).map
            NamespaceEntry.Key = (dsQuery st ns).map Prod.fst := by
          simp [List.map_map]
        rw [hsub]
        exact List.Nodup.sublist (List.Sublist.map Prod.fst (List.filter_sublist st)) hst
      · intro a ha hb
        obtain ⟨e, he, hek⟩ := List.mem_map.mp ha
        obtain ⟨p, hp, hpe⟩ := List.mem_map.mp he
        obtain ⟨e2, he2, hek2⟩ := List.mem_map.mp hb
        obtain ⟨_, hns2, hmem2⟩ := mem_scanEntries_elim he2
        have hans : keyInNamespace ns a = true := by
          subst hek
          subst hpe
          exact (List.mem_filter.mp hp).2
        have hans2 : keyInNamespace e2.Namespace a = true := hek2 ▸ hns2
        have : ns = e2.Namespace := keyInNamespace_unique hans hans2
        exact (List.nodup_cons.mp hnss).1 (this ▸ hmem2)

/-! ### Remote routing components (routing source) -/

/-- Key under which a peer's addresses are stored: `peer_addrs/{peerID}`. -/
def peerAddrsKey (peerID : Str) : Str := "peer_addrs/".data ++ peerID

/-- Model of the JSON encoding of a multiaddress list (external codec,
used only as stored bytes by this core). -/
def encodeAddrs (addrs : List Str) : Str := joinSlash addrs

/-- Model of extracting the directory-API protocol component from the
stored multiaddress bytes (external multiaddr machinery); a fixed total
function of the stored value. -/
def dirProtocolValue (v : Str) : Str := v

/-- `getDirectoryAPIAddress` (routing source): read `peer_addrs/{peer}`
and extract the directory-API endpoint; any failure yields the empty
address. -/
def getDirectoryAPIAddress (st : Datastore) (peerID : Str) : Str :=
  match dsGet st (peerAddrsKey peerID) with
  | none => []
  | some v => dirProtocolValue v

/-- A peer in notifications and search results (`routingv1.Peer` /
`notif.Peer`). -/
structure Peer where
  id : Str
  addrs : List Str
deriving DecidableEq, Repr

/-- `createPeerInfo` (routing source): a peer message carrying the
directory-API address as its single address. -/
def createPeerInfo (st : Datastore) (peerID : Str) : Peer :=
  ⟨peerID, [getDirectoryAPIAddress st peerID]⟩

/-- A record, modelled by the labels extractable from it (records are
otherwise untouched by this core). -/
structure Record where
  recordLabels : List Str
deriving DecidableEq, Repr

/-- Modelled from the spec: `GetLabelsFromRecord` (not under src/) is
pure label extraction. -/
def GetLabelsFromRecord (r : Record) : List Str := r.recordLabels

/-- A search query (`routingv1.RecordQuery`), compared structurally. -/
structure RecordQuery where
  queryType : Str
  value : Str
deriving DecidableEq, Repr

/-- Modelled from the spec: `QueryMatchesLabels` (not under src/); a
query matches a label set when some label equals the query's
`/{type}/{value}` path (exact string equality per §3). -/
def QueryMatchesLabels (q : RecordQuery) (ls : List Str) : Bool :=
  ls.any (fun l => decide (l = '/' :: (q.queryType ++ '/' :: q.value)))

/-- Structural query deduplication, keeping first occurrences. -/
def dedupAux (seen : List RecordQuery) : List RecordQuery → List RecordQuery
  | [] => []
  | q :: rest => if q ∈ seen then dedupAux seen rest else q :: dedupAux (q :: seen) rest

/-- Modelled from the spec: `deduplicateQueries` (not under src/)
collapses structurally identical queries so repeats cannot inflate a
score. -/
def deduplicateQueries (qs : List RecordQuery) : List RecordQuery := dedupAux [] qs

/-- The largest unsigned 32-bit value. -/
def UINT32MAX : Nat := 4294967295

/-- Modelled from the spec: `safeIntToUint32` (not under src/)
saturates a count into the unsigned 32-bit range. -/
def safeIntToUint32 (n : Nat) : Nat := min n UINT32MAX

/-- `getRemoteRecordLabels` (routing source): all labels whose enhanced
keys carry the given `(cid, peer)`. -/
def getRemoteRecordLabels (c : Bool) (st : Datastore) (cid peerID : Str) : List Str :=
  match QueryAllNamespaces c st with
  | .error _ => []
  | .ok entries =>
    entries.filterMap (fun e =>
      match ParseEnhancedLabelKey e.Key with
      | some (label, kc, kp) => if kc = cid ∧ kp = peerID then some label else none
      | none => none)

/-- `calculateMatchScore` (routing source): OR logic, counting how many
(deduplicated) queries match the record's cached labels, saturated into
32 bits. -/
def calculateMatchScore (c : Bool) (st : Datastore) (cid : Str)
    (queries : List RecordQuery) (peerID : Str) : List RecordQuery × Nat :=
  if queries.isEmpty then ([], 0)
  else if (getRemoteRecordLabels c st cid peerID).isEmpty then ([], 0)
  else
    (queries.filter (fun q => QueryMatchesLabels q (getRemoteRecordLabels c st cid peerID)),
     safeIntToUint32 (queries.filter (fun q =>
       QueryMatchesLabels q (getRemoteRecordLabels c st cid peerID))).length)

/-- `hasRemoteRecordCached` (routing source): whether any enhanced key
for `(cid, peer)` is cached; scan errors degrade to `false`. -/
def hasRemoteRecordCached (c : Bool) (st : Datastore) (cid peerID : Str) : Bool :=
  match QueryAllNamespaces c st with
  | .error _ => false
  | .ok entries =>
    entries.any (fun e =>
      match ParseEnhancedLabelKey e.Key with
      | some (_, kc, kp) => decide (kc = cid) && decide (kp = peerID)
      | none => false)

/-- `updateLabelMetadataTimestamp` (routing source): decode the cached
metadata, overwrite `last_seen`, re-encode and put; a decode failure
returns an error without writing. -/
def updateLabelMetadataTimestamp (st : Datastore) (key value : Str) (timestamp : GoTime) :
    Except Str Datastore :=
  match decodeLabelMetadata value with
  | none => .error "failed to unmarshal label metadata".data
  | some metadata => .ok (dsPut st key (encodeLabelMetadata ⟨metadata.Timestamp, timestamp⟩))

/-- One step of `updateRemoteRecordLastSeen`: refresh a single scanned
entry if it matches `(cid, peer)`; update failures leave the store. -/
def refreshStep (cid peerID : Str) (now : GoTime) (s : Datastore) (e : NamespaceEntry) :
    Datastore :=
  match ParseEnhancedLabelKey e.Key with
  | some (_, kc, kp) =>
    if kc = cid ∧ kp = peerID then
      match updateLabelMetadataTimestamp s e.Key e.Value now with
      | .ok s' => s'
      | .error _ => s
    else s
  | none => s

/-- `updateRemoteRecordLastSeen` (routing source): refresh `last_seen`
on every cached label of `(cid, peer)`. -/
def updateRemoteRecordLastSeen (c : Bool) (st : Datastore) (cid peerID : Str)
    (now : GoTime) : Datastore :=
  match QueryAllNamespaces c st with
  | .error _ => st
  | .ok entries => entries.foldl (refreshStep cid peerID now) st

/-- A DHT provider notification (`handlerSync`). -/
structure HandlerSync where
  peer : Peer
  refCid : Str
deriving DecidableEq, Repr

/-- Result of the provider-notification handler: the updated store and,
when `StoreAPI.Pull` was invoked, its `(peer, cid)` arguments. -/
structure NotifResult where
  store : Datastore
  pulled : Option (Str × Str)
deriving DecidableEq, Repr

/-- The peer-address learning step of the provider-notification
handler: when the notification carries addresses and none are stored
yet, store them under `peer_addrs/{peer}` (first write wins). -/
def learnPeerAddrs (st : Datastore) (notif : HandlerSync) : Datastore :=
  if notif.peer.addrs.length > 0 ∧ dsGet st (peerAddrsKey notif.peer.id) = none then
    dsPut st (peerAddrsKey notif.peer.id) (encodeAddrs notif.peer.addrs)
  else st

/-- `handleCIDProviderNotification` (routing source): self-filter, peer
address learning, then fast path (labels cached: refresh `last_seen`)
or slow path (pull the record and cache each label with
`timestamp = last_seen = now`).  The outcome of `StoreAPI.Pull` is
passed in as `pullResult`. -/
def handleCIDProviderNotification (c : Bool) (localPeerID : Str) (pullResult : Option Record)
    (now : GoTime) (st : Datastore) (notif : HandlerSync) : NotifResult :=
  if notif.peer.id = localPeerID then ⟨st, none⟩
  else
    if hasRemoteRecordCached c (learnPeerAddrs st notif) notif.refCid notif.peer.id then
      ⟨updateRemoteRecordLastSeen c (learnPeerAddrs st notif) notif.refCid notif.peer.id now,
       none⟩
    else
      match pullResult with
      | none => ⟨learnPeerAddrs st notif, some (notif.peer.id, notif.refCid)⟩
      | some record =>
        if (GetLabelsFromRecord record).isEmpty then
          ⟨learnPeerAddrs st notif, some (notif.peer.id, notif.refCid)⟩
        else
          ⟨(GetLabelsFromRecord record).foldl (fun s label =>
              dsPut s (BuildEnhancedLabelKey label notif.refCid notif.peer.id)
                (encodeLabelMetadata ⟨now, now⟩)) (learnPeerAddrs st notif),
           some (notif.peer.id, notif.refCid)⟩

/-- `handleLabelAnnouncement` (routing source): skip announcements
declaring the local peer, otherwise cache every announced label under
its enhanced key with `timestamp = ann.Timestamp`, `last_seen = now`. -/
def handleLabelAnnouncement (localPeerID : Str) (now : GoTime) (st : Datastore)
    (ann : LabelAnnouncement) : Datastore :=
  if ann.PeerID = localPeerID then st
  else
    ann.Labels.foldl (fun s labelStr =>
      dsPut s (BuildEnhancedLabelKey labelStr ann.CID ann.PeerID)
        (encodeLabelMetadata ⟨ann.Timestamp, now⟩)) st

/-- A gossip delivery: the peer the router received it from, and the
raw payload. -/
structure GossipMessage where
  receivedFrom : Str
  data : Str
deriving DecidableEq, Repr

/-- One iteration of `Manager.handleMessages` (manager.go): drop
deliveries originating from the local host, unmarshal and validate,
then invoke the announcement callback. -/
def handleMessage (localPeerID : Str) (now : GoTime) (st : Datastore)
    (msg : GossipMessage) : Datastore :=
  if msg.receivedFrom = localPeerID then st
  else
    match UnmarshalLabelAnnouncement msg.data with
    | .error _ => st
    | .ok ann => handleLabelAnnouncement localPeerID now st ann

/-- `Manager.PublishLabels` (manager.go): build the announcement with
the local peer id and current time, validate, marshal, then submit to
the topic (outcome of the external submit passed as a boolean). -/
def PublishLabels (localPeerID : Str) (now : GoTime) (topicPublishOk : Bool)
    (cid : Str) (labelList : List Str) : Except Str Unit :=
  let announcement : LabelAnnouncement := ⟨cid, localPeerID, labelList, now⟩
  match announcement.Validate with
  | .error _ => .error "invalid announcement".data
  | .ok _ =>
    match announcement.Marshal with
    | .error _ => .error "failed to marshal announcement".data
    | .ok _ =>
      if topicPublishOk then .ok () else .error "failed to publish announcement".data

/-- Outcomes of the external steps of a publish: CID parsing, the DHT
provide call, whether the gossip manager is enabled, and the gossip
topic submit. -/
structure PublishEnv where
  cidValid : Bool
  dhtProvideOk : Bool
  gossipEnabled : Bool
  topicPublishOk : Bool
deriving DecidableEq, Repr

/-- Result of `publishToNetwork`: the returned error, and the outcome of
the best-effort gossip publish when it was attempted (it is logged,
never returned). -/
structure PublishResult where
  err : Option Str
  gossipAttempted : Bool
  gossipOk : Bool
deriving DecidableEq, Repr

/-- `publishToNetwork` (routing source): parse the CID (hard failure),
announce to the DHT (hard failure), then best-effort gossip publish of
the record's labels when the manager exists and labels are present. -/
def publishToNetwork (env : PublishEnv) (localPeerID : Str) (now : GoTime)
    (cidStr : Str) (record : Record) : PublishResult :=
  if ¬env.cidValid then ⟨some "failed to parse CID".data, false, false⟩
  else if ¬env.dhtProvideOk then ⟨some "failed to announce CID to DHT".data, false, false⟩
  else if env.gossipEnabled ∧ ¬(GetLabelsFromRecord record).isEmpty then
    match PublishLabels localPeerID now env.topicPublishOk cidStr (GetLabelsFromRecord record) with
    | .ok _ => ⟨none, true, true⟩
    | .error _ => ⟨none, true, false⟩
  else ⟨none, false, false⟩

/-- `Publish` (routing source): delegate to `publishToNetwork`, wrapping
any error in a gRPC internal status. -/
def Publish (env : PublishEnv) (localPeerID : Str) (now : GoTime)
    (cidStr : Str) (record : Record) : PublishResult :=
  let r := publishToNetwork env localPeerID now cidStr record
  match r.err with
  | some e => ⟨some ("Internal: ".data ++ e), r.gossipAttempted, r.gossipOk⟩
  | none => r

/-- A record reference (`corev1.RecordRef`). -/
structure RecordRef where
  cid : Str
deriving DecidableEq, Repr

/-- A search result (`routingv1.SearchResponse`). -/
structure SearchResponse where
  recordRef : RecordRef
  peer : Peer
  matchQueries : List RecordQuery
  matchScore : Nat
deriving DecidableEq, Repr

/-- A search request (`routingv1.SearchRequest`). -/
structure SearchRequest where
  queries : List RecordQuery
  limit : Nat
  minMatchScore : Nat
deriving DecidableEq, Repr

/-- Modelled from the spec: `DefaultMinMatchScore = 1` (constants not
under src/). -/
def DefaultMinMatchScore : Nat := 1

/-- The entry loop of `searchRemoteRecords` (routing source): walk the
scanned entries carrying the processed-CID set and count, skipping
malformed keys, local records, already-emitted CIDs and records under
the score threshold, and stopping at the limit. -/
def searchLoop (c : Bool) (localPeerID : Str) (st : Datastore) (queries : List RecordQuery)
    (limit minMatchScore : Nat) :
    List NamespaceEntry → List Str → Nat → List SearchResponse
  | [], _, _ => []
  | e :: rest, processedCIDs, processedCount =>
    if limit > 0 ∧ processedCount ≥ limit then []
    else
      match ParseEnhancedLabelKey e.Key with
      | none =>
        searchLoop c localPeerID st queries limit minMatchScore rest processedCIDs processedCount
      | some (_, keyCID, keyPeerID) =>
        if keyPeerID = localPeerID then
          searchLoop c localPeerID st queries limit minMatchScore rest processedCIDs processedCount
        else if keyCID ∈ processedCIDs then
          searchLoop c localPeerID st queries limit minMatchScore rest processedCIDs processedCount
        else
          if (calculateMatchScore c st keyCID queries keyPeerID).2 ≥ minMatchScore then
            ⟨⟨keyCID⟩, createPeerInfo st keyPeerID,
              (calculateMatchScore c st keyCID queries keyPeerID).1,
              (calculateMatchScore c st keyCID queries keyPeerID).2⟩ ::
              (if limit > 0 ∧ processedCount + 1 ≥ limit then []
               else searchLoop c localPeerID st queries limit minMatchScore rest
                 (keyCID :: processedCIDs) (processedCount + 1))
          else
            searchLoop c localPeerID st queries limit minMatchScore rest processedCIDs
              processedCount

/-- `searchRemoteRecords` (routing source): scan all namespaces and run
the entry loop; a scan error ends the search with no results. -/
def searchRemoteRecords (c : Bool) (localPeerID : Str) (st : Datastore)
    (queries : List RecordQuery) (limit minMatchScore : Nat) : List SearchResponse :=
  match QueryAllNamespaces c st with
  | .error _ => []
  | .ok entries => searchLoop c localPeerID st queries limit minMatchScore entries [] 0

/-- `Search` (routing source): deduplicate the queries, coerce the
minimum match score up to `DefaultMinMatchScore`, and stream the
results of `searchRemoteRecords`; the emitted list is the closed result
stream and the second component is the error returned to the caller. -/
def Search (c : Bool) (localPeerID : Str) (st : Datastore) (req : SearchRequest) :
    List SearchResponse × Option Str :=
  let dq := deduplicateQueries req.queries
  let mms := if req.minMatchScore < DefaultMinMatchScore then DefaultMinMatchScore
             else req.minMatchScore
  (searchRemoteRecords c localPeerID st dq req.limit mms, none)

/-! ### Claim theorems -/

theorem validate_ok_iff (a : LabelAnnouncement) :
    a.Validate = .ok () ↔
      (a.CID ≠ [] ∧ a.PeerID ≠ [] ∧ 1 ≤ a.Labels.length ∧
       a.Labels.length ≤ MaxLabelsPerAnnouncement ∧ a.Timestamp.isZero = false) := by
  unfold LabelAnnouncement.Validate
  split_ifs with h1 h2 h3 h4 h5
  · simp [h1]
  · simp [h2]
  · constructor
    · intro h
      exact h.elim
    · rintro ⟨-, -, h5', -⟩
      omega
  · constructor
    · intro h
      exact h.elim
    · rintro ⟨-, -, -, h6', -⟩
      omega
  · constructor
    · intro h
      exact h.elim
    · rintro ⟨-, -, -, -, h7'⟩
      simp [h5] at h7'
  · constructor
    · intro _
      refine ⟨h1, h2, by omega, by omega, ?_⟩
      simpa using h5
    · intro _
      rfl

/-- Claim C3: `UnmarshalLabelAnnouncement` succeeds (returns an
announcement rather than an error) iff the input is at most
`MaxMessageSize` bytes, decodes as JSON, and the decoded announcement
has a non-empty cid and peer_id, between 1 and
`MaxLabelsPerAnnouncement` labels, and a non-zero timestamp.  In
particular exactly `MaxLabelsPerAnnouncement` labels are accepted and
one more is rejected. -/
theorem claim_C3 (data : Str) (ann : LabelAnnouncement) :
    UnmarshalLabelAnnouncement data = .ok ann ↔
      (data.length ≤ MaxMessageSize ∧ jsonDecodeAnnouncement data = some ann ∧
       ann.CID ≠ [] ∧ ann.PeerID ≠ [] ∧ 1 ≤ ann.Labels.length ∧
       ann.Labels.length ≤ MaxLabelsPerAnnouncement ∧ ann.Timestamp.isZero = false) := by
  unfold UnmarshalLabelAnnouncement
  by_cases hsz : data.length > MaxMessageSize
  · rw [if_pos hsz]
    constructor
    · intro h
      exact Except.noConfusion h
    · rintro ⟨h1, -⟩
      omega
  · rw [if_neg hsz]
    push_neg at hsz
    split
    · rename_i heq
      constructor
      · intro h
        exact Except.noConfusion h
      · rintro ⟨-, h2, -⟩
        rw [heq] at h2
        cases h2
    · rename_i a2 heq
      split
      · rename_i e hv
        constructor
        · intro h
          exact Except.noConfusion h
        · rintro ⟨-, h2, h3, h4, h5, h6, h7⟩
          rw [heq] at h2
          injection h2 with h2
          subst h2
          rw [(validate_ok_iff _).mpr ⟨h3, h4, h5, h6, h7⟩] at hv
          cases hv
      · rename_i u hv
        cases u
        constructor
        · intro h
          injection h with h
          subst h
          exact ⟨hsz, heq, (validate_ok_iff _).mp hv⟩
        · rintro ⟨-, h2, -⟩
          rw [heq] at h2
          injection h2 with h2
          subst h2
          rfl

/-- Claim C7: for every well-formed `LabelAnnouncement` whose encoding
fits in `MaxMessageSize` bytes, `Marshal` followed by
`UnmarshalLabelAnnouncement` succeeds and yields the original
structure. -/
theorem claim_C7 (a : LabelAnnouncement)
    (hok : a.Validate = .ok ())
    (hfit : (jsonEncodeAnnouncement a).length ≤ MaxMessageSize) :
    a.Marshal = .ok (jsonEncodeAnnouncement a) ∧
      UnmarshalLabelAnnouncement (jsonEncodeAnnouncement a) = .ok a := by
  constructor
  · unfold LabelAnnouncement.Marshal
    rw [if_neg (by omega)]
  · unfold UnmarshalLabelAnnouncement
    rw [if_neg (by omega)]
    simp only [jsonDecode_jsonEncode, hok]

/-- A well-formed announcement used as a concrete witness. -/
def wAnn : LabelAnnouncement :=
  ⟨"c1".data, "p1".data, ["/skills/AI/ML".data, "/domains/research".data],
   ⟨"2025-10-01T10:00:00Z".data⟩⟩

theorem claim_C7_witness :
    (wAnn.Validate = .ok () ∧ (jsonEncodeAnnouncement wAnn).length ≤ MaxMessageSize) ∧
    (wAnn.Marshal = .ok (jsonEncodeAnnouncement wAnn) ∧
     UnmarshalLabelAnnouncement (jsonEncodeAnnouncement wAnn) = .ok wAnn) :=
  ⟨⟨by rfl, by decide⟩, claim_C7 wAnn (by rfl) (by decide)⟩

/-- Claim C5: `Publish` returns an error exactly when CID parsing fails
or the DHT provide step fails; the outcome of the best-effort gossip
publish (`env.gossipEnabled`, `env.topicPublishOk`, arbitrary here)
never reaches the caller. -/
theorem claim_C5 (env : PublishEnv) (localPeerID : Str) (now : GoTime)
    (cidStr : Str) (record : Record) :
    ((Publish env localPeerID now cidStr record).err = none ↔
      (env.cidValid = true ∧ env.dhtProvideOk = true)) := by
  unfold Publish publishToNetwork
  by_cases h1 : env.cidValid = true
  · by_cases h2 : env.dhtProvideOk = true
    · rw [if_neg (by simp [h1]), if_neg (by simp [h2])]
      split
      · split <;> simp [h1, h2]
      · simp [h1, h2]
    · rw [if_neg (by simp [h1]), if_pos (by simp [h2])]
      simp [h2]
  · rw [if_pos (by simp [h1])]
    simp [h1]

/-- Claim C9: `updateLabelMetadataTimestamp`, given a key, its current
encoded metadata and a time, writes back a value whose `last_seen` is
that time and whose `timestamp` is unchanged from the decoded input;
when the input value fails to decode it returns an error and no updated
store. -/
theorem claim_C9 (st : Datastore) (key value : Str) (t : GoTime) :
    (∀ m, decodeLabelMetadata value = some m →
       ∃ st', updateLabelMetadataTimestamp st key value t = .ok st' ∧
         dsGet st' key = some (encodeLabelMetadata ⟨m.Timestamp, t⟩) ∧
         decodeLabelMetadata (encodeLabelMetadata ⟨m.Timestamp, t⟩) =
           some ⟨m.Timestamp, t⟩) ∧
    (decodeLabelMetadata value = none →
       updateLabelMetadataTimestamp st key value t =
         .error "failed to unmarshal label metadata".data) := by
  constructor
  · intro m hm
    refine ⟨dsPut st key (encodeLabelMetadata ⟨m.Timestamp, t⟩), ?_, ?_, ?_⟩
    · unfold updateLabelMetadataTimestamp
      rw [hm]
    · exact dsGet_dsPut_self st key _
    · exact decodeLM_encodeLM _
  · intro hm
    unfold updateLabelMetadataTimestamp
    rw [hm]

/-- A concrete metadata value for witnesses. -/
def wMetaVal : Str := encodeLabelMetadata ⟨⟨"2025-10-01T10:00:00Z".data⟩, ⟨"2025-10-01T10:00:05Z".data⟩⟩

theorem claim_C9_witness :
    ∃ st', updateLabelMetadataTimestamp [] "/skills/AI/c1/p1".data wMetaVal
        ⟨"2025-10-02T00:00:00Z".data⟩ = .ok st' ∧
      dsGet st' "/skills/AI/c1/p1".data =
        some (encodeLabelMetadata
          ⟨⟨"2025-10-01T10:00:00Z".data⟩, ⟨"2025-10-02T00:00:00Z".data⟩⟩) ∧
      decodeLabelMetadata (encodeLabelMetadata
          ⟨⟨"2025-10-01T10:00:00Z".data⟩, ⟨"2025-10-02T00:00:00Z".data⟩⟩) =
        some ⟨⟨"2025-10-01T10:00:00Z".data⟩, ⟨"2025-10-02T00:00:00Z".data⟩⟩ :=
  (claim_C9 [] "/skills/AI/c1/p1".data wMetaVal ⟨"2025-10-02T00:00:00Z".data⟩).1
    ⟨⟨"2025-10-01T10:00:00Z".data⟩, ⟨"2025-10-01T10:00:05Z".data⟩⟩ (by decide)

/-- Claim C6: the gossip receive path never stores entries for the
local node: a delivery originating from the local host is dropped by
the subscription handler, and an announcement declaring the local
PeerID is dropped by the announcement callback, each leaving the store
unchanged. -/
theorem claim_C6 (localPeerID : Str) (now : GoTime) (st : Datastore)
    (msg : GossipMessage) (ann : LabelAnnouncement) :
    (msg.receivedFrom = localPeerID → handleMessage localPeerID now st msg = st) ∧
    (ann.PeerID = localPeerID → handleLabelAnnouncement localPeerID now st ann = st) := by
  constructor
  · intro h
    unfold handleMessage
    rw [if_pos h]
  · intro h
    unfold handleLabelAnnouncement
    rw [if_pos h]

theorem claim_C6_witness :
    handleMessage "p1".data ⟨"t".data⟩ [] ⟨"p1".data, "x".data⟩ = [] ∧
    handleLabelAnnouncement "p1".data ⟨"t".data⟩ []
      ⟨"c1".data, "p1".data, ["/skills/AI".data], ⟨"t0".data⟩⟩ = [] :=
  ⟨(claim_C6 "p1".data ⟨"t".data⟩ [] ⟨"p1".data, "x".data⟩
      ⟨"c1".data, "p1".data, ["/skills/AI".data], ⟨"t0".data⟩⟩).1 rfl,
   (claim_C6 "p1".data ⟨"t".data⟩ [] ⟨"p1".data, "x".data⟩
      ⟨"c1".data, "p1".data, ["/skills/AI".data], ⟨"t0".data⟩⟩).2 rfl⟩

/-- Claim C10: `Search` never returns an error to the caller: the error
component is always `none`, and on a failed namespace scan (cancelled
context) the result stream is simply closed with no results. -/
theorem claim_C10 (c : Bool) (localPeerID : Str) (st : Datastore) (req : SearchRequest) :
    (Search c localPeerID st req).2 = none ∧
    (c = true → (Search c localPeerID st req).1 = []) := by
  constructor
  · rfl
  · intro h
    subst h
    rfl

theorem claim_C10_witness :
    (Search true "p0".data [] ⟨[], 0, 0⟩).2 = none ∧
    (Search true "p0".data [] ⟨[], 0, 0⟩).1 = [] :=
  ⟨(claim_C10 true "p0".data [] ⟨[], 0, 0⟩).1,
   (claim_C10 true "p0".data [] ⟨[], 0, 0⟩).2 rfl⟩

/-- Every response emitted by the search loop comes from an entry whose
trailing peer is remote and whose score met the threshold, and carries
exactly the match set and score computed for its `(cid, peer)`. -/
theorem mem_searchLoop {c : Bool} {localPeerID : Str} {st : Datastore}
    {queries : List RecordQuery} {limit mms : Nat} :
    ∀ (entries : List NamespaceEntry) (processed : List Str) (count : Nat)
      (resp : SearchResponse),
      resp ∈ searchLoop c localPeerID st queries limit mms entries processed count →
      ∃ keyCID keyPeerID,
        resp = ⟨⟨keyCID⟩, createPeerInfo st keyPeerID,
          (calculateMatchScore c st keyCID queries keyPeerID).1,
          (calculateMatchScore c st keyCID queries keyPeerID).2⟩ ∧
        keyPeerID ≠ localPeerID ∧
        mms ≤ (calculateMatchScore c st keyCID queries keyPeerID).2 := by
  intro entries
  induction entries with
  | nil =>
      intro processed count resp h
      simp [searchLoop] at h
  | cons e rest ih =>
      intro processed count resp h
      rw [searchLoop] at h
      split at h
      · simp at h
      · split at h
        · exact ih _ _ _ h
        · rename_i label keyCID keyPeerID heq
          split at h
          · exact ih _ _ _ h
          · split at h
            · exact ih _ _ _ h
            · rename_i hne hmem
              split at h
              · rename_i hscore
                rcases List.mem_cons.mp h with hresp | h'
                · exact ⟨keyCID, keyPeerID, hresp, hne, hscore⟩
                · split at h'
                  · simp at h'
                  · exact ih _ _ _ h'
              · exact ih _ _ _ h

/-- The search loop emits every CID at most once, and never a CID
already in the processed set. -/
theorem searchLoop_cids_nodup {c : Bool} {localPeerID : Str} {st : Datastore}
    {queries : List RecordQuery} {limit mms : Nat} :
    ∀ (entries : List NamespaceEntry) (processed : List Str) (count : Nat),
      (((searchLoop c localPeerID st queries limit mms entries processed count).map
          (fun r => r.recordRef.cid)).Nodup) ∧
      ∀ x ∈ (searchLoop c localPeerID st queries limit mms entries processed count).map
          (fun r => r.recordRef.cid), x ∉ processed := by
  intro entries
  induction entries with
  | nil =>
      intro processed count
      simp [searchLoop]
  | cons e rest ih =>
      intro processed count
      rw [searchLoop]
      split
      · simp
      · split
        · exact ih _ _
        · rename_i label keyCID keyPeerID heq
          split
          · exact ih _ _
          · split
            · exact ih _ _
            · rename_i hne hmem
              split
              · rename_i hscore
                constructor
                · rw [List.map_cons, List.nodup_cons]
                  constructor
                  · split
                    · simp
                    · intro hin
                      exact (ih (keyCID :: processed) (count + 1)).2 _ hin
                        (List.mem_cons_self _ _)
                  · split
                    · simp
                    · exact (ih (keyCID :: processed) (count + 1)).1
                · intro x hx
                  rw [List.map_cons] at hx
                  rcases List.mem_cons.mp hx with hxe | hxr
                  · simpa [hxe] using hmem
                  · revert hxr
                    split
                    · intro hxr
                      simp at hxr
                    · intro hxr hxp
                      exact (ih (keyCID :: processed) (count + 1)).2 _ hxr
                        (List.mem_cons_of_mem _ hxp)
              · exact ih _ _

theorem dedupAux_length (qs : List RecordQuery) : ∀ seen : List RecordQuery,
    (dedupAux seen qs).length ≤ qs.length := by
  induction qs with
  | nil => intro seen; simp [dedupAux]
  | cons q rest ih =>
      intro seen
      rw [dedupAux]
      split
      · exact Nat.le_trans (ih seen) (by simp)
      · simpa using ih (q :: seen)

/-- When the number of queries fits in 32 bits, the saturated score is
exactly the number of matching queries. -/
theorem calculateMatchScore_spec (c : Bool) (st : Datastore) (cid : Str)
    (queries : List RecordQuery) (peerID : Str)
    (hq : queries.length ≤ UINT32MAX) :
    (calculateMatchScore c st cid queries peerID).2 =
      (calculateMatchScore c st cid queries peerID).1.length := by
  unfold calculateMatchScore
  split
  · rfl
  · split
    · rfl
    · simp only
      have hle : (queries.filter
          (fun q => QueryMatchesLabels q (getRemoteRecordLabels c st cid peerID))).length ≤
          queries.length := List.length_filter_le _ _
      rw [safeIntToUint32, Nat.min_eq_left (by omega)]

/-- Claim C2: every emitted `SearchResponse` has `match_score` equal to
the number of entries in `match_queries`, and `match_score` at least
`max 1 request.min_match_score` (so `min_match_score = 0` is treated as
1).  The query count is bounded by the 32-bit range, within which the
saturating conversion is exact. -/
theorem claim_C2 (c : Bool) (localPeerID : Str) (st : Datastore) (req : SearchRequest)
    (hq : req.queries.length ≤ UINT32MAX) :
    ∀ resp ∈ (Search c localPeerID st req).1,
      resp.matchScore = resp.matchQueries.length ∧
      max 1 req.minMatchScore ≤ resp.matchScore := by
  intro resp hresp
  unfold Search searchRemoteRecords at hresp
  simp only at hresp
  split at hresp
  · simp at hresp
  · obtain ⟨keyCID, keyPeerID, hr, -, hscore⟩ := mem_searchLoop _ _ _ _ hresp
    subst hr
    constructor
    · exact calculateMatchScore_spec c st keyCID _ keyPeerID
        (Nat.le_trans (dedupAux_length _ _) hq)
    · simp only
      by_cases hm : req.minMatchScore < DefaultMinMatchScore
      · rw [if_pos hm] at hscore
        unfold DefaultMinMatchScore at hm hscore
        omega
      · rw [if_neg hm] at hscore
        unfold DefaultMinMatchScore at hm
        omega

/-- Claim C4: within one `Search` call no two emitted responses carry
the same record CID. -/
theorem claim_C4 (c : Bool) (localPeerID : Str) (st : Datastore) (req : SearchRequest) :
    (((Search c localPeerID st req).1).map (fun r => r.recordRef.cid)).Nodup := by
  unfold Search searchRemoteRecords
  simp only
  split
  · simp
  · exact (searchLoop_cids_nodup _ [] 0).1

/-- Claim C8: no emitted `SearchResponse` carries the local node as its
peer: enhanced keys whose trailing PeerID is local are skipped. -/
theorem claim_C8 (c : Bool) (localPeerID : Str) (st : Datastore) (req : SearchRequest) :
    ∀ resp ∈ (Search c localPeerID st req).1, resp.peer.id ≠ localPeerID := by
  intro resp hresp
  unfold Search searchRemoteRecords at hresp
  simp only at hresp
  split at hresp
  · simp at hresp
  · obtain ⟨keyCID, keyPeerID, hr, hne, -⟩ := mem_searchLoop _ _ _ _ hresp
    subst hr
    simpa [createPeerInfo] using hne

/-- A concrete store holding one remote enhanced key, for witnesses. -/
def wStore : Datastore := [("/skills/AI/c1/p1".data, wMetaVal)]

/-- A concrete search request, for witnesses. -/
def wReq : SearchRequest := ⟨[⟨"skills".data, "AI".data⟩], 0, 0⟩

/-- The response `Search` emits on `wStore` and `wReq`. -/
def wResp : SearchResponse :=
  ⟨⟨"c1".data⟩, ⟨"p1".data, [[]]⟩, [⟨"skills".data, "AI".data⟩], 1⟩

theorem claim_C2_witness :
    wResp ∈ (Search false "p0".data wStore wReq).1 ∧
    (wResp.matchScore = wResp.matchQueries.length ∧
     max 1 wReq.minMatchScore ≤ wResp.matchScore) :=
  ⟨by decide, claim_C2 false "p0".data wStore wReq (by decide) wResp (by decide)⟩


/-! #### Lemmas for the provider-notification reconciler (claim C1) -/

theorem splitSegsAux_head (s : Str) : ∀ acc : Str,
    ∃ t rest, splitSegsAux acc s = (acc.reverse ++ t) :: rest := by
  induction s with
  | nil =>
      intro acc
      exact ⟨[], [], by simp [splitSegsAux]⟩
  | cons c cs ih =>
      intro acc
      rw [splitSegsAux]
      by_cases h : c = '/'
      · rw [if_pos h]
        exact ⟨[], splitSegsAux [] cs, by simp⟩
      · rw [if_neg h]
        obtain ⟨t, rest, ht⟩ := ih (c :: acc)
        refine ⟨[c] ++ t, rest, ?_⟩
        rw [ht]
        simp

theorem parse_cons_ne_slash {c : Char} (s : Str) (h : c ≠ '/') :
    ParseEnhancedLabelKey (c :: s) = none := by
  unfold ParseEnhancedLabelKey splitSegs
  rw [splitSegsAux, if_neg h]
  obtain ⟨t, rest, ht⟩ := splitSegsAux_head s [c]
  rw [ht]
  simp

theorem parse_peerAddrsKey (p : Str) : ParseEnhancedLabelKey (peerAddrsKey p) = none := by
  rw [show peerAddrsKey p = 'p' :: ("eer_addrs/".data ++ p) from rfl]
  exact parse_cons_ne_slash _ (by decide)

theorem parse_keyInNamespace {k l c0 p0 : Str}
    (h : ParseEnhancedLabelKey k = some (l, c0, p0)) :
    ∃ ns, ns ∈ namespaceNames ∧ keyInNamespace ns k = true := by
  unfold ParseEnhancedLabelKey at h
  split at h
  · rename_i n rest heq
    split at h
    · rename_i hcont
      split at h
      · rename_i peer cid labelRev heqr
        split at h
        · cases h
        · refine ⟨n, ?_, ?_⟩
          · simpa using hcont
          · unfold keyInNamespace
            rw [heq]
            cases rest with
            | nil => simp at heqr
            | cons r0 rest' => simp
      · cases h
    · cases h
  · cases h

theorem learnPeerAddrs_mem_of (st : Datastore) (notif : HandlerSync) {k v : Str}
    (hmem : (k, v) ∈ st) (hne : k ≠ peerAddrsKey notif.peer.id) :
    (k, v) ∈ learnPeerAddrs st notif := by
  unfold learnPeerAddrs
  split
  · exact mem_dsPut_of_ne _ _ hmem hne
  · exact hmem

theorem learnPeerAddrs_mem_elim {st : Datastore} {notif : HandlerSync} {k v : Str}
    (h : (k, v) ∈ learnPeerAddrs st notif) :
    (k, v) ∈ st ∨ k = peerAddrsKey notif.peer.id := by
  unfold learnPeerAddrs at h
  split at h
  · exact mem_dsPut_elim h
  · exact Or.inl h

theorem learnPeerAddrs_nodup {st : Datastore} (notif : HandlerSync)
    (h : (st.map Prod.fst).Nodup) : ((learnPeerAddrs st notif).map Prod.fst).Nodup := by
  unfold learnPeerAddrs
  split
  · exact keys_dsPut_nodup _ _ h
  · exact h

theorem queryAll_false (st : Datastore) :
    QueryAllNamespaces false st = .ok (scanEntries st namespaceNames) := rfl

theorem hasRemoteRecordCached_false_eq (st : Datastore) (cid peerID : Str) :
    hasRemoteRecordCached false st cid peerID =
      (scanEntries st namespaceNames).any (fun e =>
        match ParseEnhancedLabelKey e.Key with
        | some (_, kc, kp) => decide (kc = cid) && decide (kp = peerID)
        | none => false) := rfl

theorem updateRemoteLastSeen_false_eq (st : Datastore) (cid peerID : Str) (now : GoTime) :
    updateRemoteRecordLastSeen false st cid peerID now =
      (scanEntries st namespaceNames).foldl (refreshStep cid peerID now) st := rfl

theorem cached_true_of_mem {st1 : Datastore} {C P k v l : Str}
    (hmem : (k, v) ∈ st1)
    (hp : ParseEnhancedLabelKey k = some (l, C, P)) :
    hasRemoteRecordCached false st1 C P = true := by
  rw [hasRemoteRecordCached_false_eq, List.any_eq_true]
  obtain ⟨ns, hns, hkns⟩ := parse_keyInNamespace hp
  refine ⟨⟨ns, k, v⟩, mem_scanEntries_intro hmem hkns hns, ?_⟩
  simp only [hp]
  simp

theorem refreshStep_cases (cid peerID : Str) (now : GoTime) (s : Datastore)
    (e : NamespaceEntry) :
    refreshStep cid peerID now s e = s ∨
      ∃ v', refreshStep cid peerID now s e = dsPut s e.Key v' := by
  unfold refreshStep
  split
  · split
    · split
      · rename_i s' hup
        unfold updateLabelMetadataTimestamp at hup
        split at hup
        · cases hup
        · rename_i m hm
          injection hup with hup
          exact Or.inr ⟨_, hup.symm⟩
      · exact Or.inl rfl
    · exact Or.inl rfl
  · exact Or.inl rfl

theorem refreshStep_get_ne (cid peerID : Str) (now : GoTime) (s : Datastore)
    (e : NamespaceEntry) (k : Str) (h : k ≠ e.Key) :
    dsGet (refreshStep cid peerID now s e) k = dsGet s k := by
  rcases refreshStep_cases cid peerID now s e with he | ⟨v', he⟩
  · rw [he]
  · rw [he]
    exact dsGet_dsPut_ne _ _ _ _ h

theorem refreshStep_write {cid peerID l : Str} {now : GoTime} {m : LabelMetadata}
    (s : Datastore) (e : NamespaceEntry)
    (hparse : ParseEnhancedLabelKey e.Key = some (l, cid, peerID))
    (hdec : decodeLabelMetadata e.Value = some m) :
    refreshStep cid peerID now s e =
      dsPut s e.Key (encodeLabelMetadata ⟨m.Timestamp, now⟩) := by
  unfold refreshStep
  split
  · rename_i l' kc kp hp
    rw [hparse] at hp
    injection hp with hp
    injection hp with hl hp
    injection hp with hc hpe
    subst hl
    subst hc
    subst hpe
    rw [if_pos ⟨rfl, rfl⟩]
    split
    · rename_i s' hup
      unfold updateLabelMetadataTimestamp at hup
      split at hup
      · cases hup
      · rename_i m' hm
        rw [hdec] at hm
        injection hm with hm
        subst hm
        injection hup with hup
        exact hup.symm
    · rename_i e' hup
      unfold updateLabelMetadataTimestamp at hup
      split at hup
      · rename_i hm
        rw [hdec] at hm
        cases hm
      · cases hup
  · rename_i hp
    rw [hparse] at hp
    cases hp

theorem refresh_fold_get_ne {cid peerID : Str} {now : GoTime} :
    ∀ (entries : List NamespaceEntry) (s : Datastore) (k : Str),
      k ∉ entries.map NamespaceEntry.Key →
      dsGet (entries.foldl (refreshStep cid peerID now) s) k = dsGet s k := by
  intro entries
  induction entries with
  | nil => intro s k _; rfl
  | cons e rest ih =>
      intro s k hk
      rw [List.foldl_cons]
      rw [List.map_cons, List.mem_cons] at hk
      push_neg at hk
      rw [ih _ k hk.2]
      exact refreshStep_get_ne _ _ _ _ _ _ hk.1

theorem refresh_fold_get {cid peerID l : Str} {now : GoTime} {m : LabelMetadata} :
    ∀ (entries : List NamespaceEntry) (s0 : Datastore) (e : NamespaceEntry),
      e ∈ entries →
      (entries.map NamespaceEntry.Key).Nodup →
      ParseEnhancedLabelKey e.Key = some (l, cid, peerID) →
      decodeLabelMetadata e.Value = some m →
      dsGet (entries.foldl (refreshStep cid peerID now) s0) e.Key =
        some (encodeLabelMetadata ⟨m.Timestamp, now⟩) := by
  intro entries
  induction entries with
  | nil =>
      intro s0 e he
      simp at he
  | cons e0 rest ih =>
      intro s0 e he hnd hparse hdec
      rw [List.foldl_cons]
      rw [List.map_cons, List.nodup_cons] at hnd
      rcases List.mem_cons.mp he with rfl | he'
      · rw [refresh_fold_get_ne rest _ e.Key hnd.1]
        rw [refreshStep_write s0 e hparse hdec]
        exact dsGet_dsPut_self _ _ _
      · exact ih _ e he' hnd.2 hparse hdec

theorem put_fold_preserve {C P : Str} {now : GoTime} {K : Str} :
    ∀ (labs : List Str) (s : Datastore),
      dsGet s K = some (encodeLabelMetadata ⟨now, now⟩) →
      dsGet (labs.foldl (fun s' label =>
        dsPut s' (BuildEnhancedLabelKey label C P) (encodeLabelMetadata ⟨now, now⟩)) s) K =
        some (encodeLabelMetadata ⟨now, now⟩) := by
  intro labs
  induction labs with
  | nil => intro s h; exact h
  | cons l0 rest ih =>
      intro s h
      rw [List.foldl_cons]
      apply ih
      by_cases hk : K = BuildEnhancedLabelKey l0 C P
      · rw [hk, dsGet_dsPut_self]
      · rw [dsGet_dsPut_ne _ _ _ _ hk]
        exact h

theorem put_fold_get {C P : Str} {now : GoTime} :
    ∀ (labs : List Str) (s0 : Datastore) (lab : Str), lab ∈ labs →
      dsGet (labs.foldl (fun s label =>
        dsPut s (BuildEnhancedLabelKey label C P) (encodeLabelMetadata ⟨now, now⟩)) s0)
        (BuildEnhancedLabelKey lab C P) =
        some (encodeLabelMetadata ⟨now, now⟩) := by
  intro labs
  induction labs with
  | nil =>
      intro s0 lab h
      simp at h
  | cons l0 rest ih =>
      intro s0 lab h
      rw [List.foldl_cons]
      rcases List.mem_cons.mp h with rfl | h'
      · exact put_fold_preserve rest _ (dsGet_dsPut_self _ _ _)
      · exact ih _ lab h'

/-- Claim C1: on a DHT provider notification for a remote `(cid, peer)`
pair, when some enhanced key for that pair is already cached the
handler refreshes `last_seen = now` on every cached entry of the pair
(those whose metadata decodes) and does not invoke `StoreAPI.Pull`;
when none is cached it invokes `StoreAPI.Pull(peer, cid)` and, when the
pull returns a record, writes for each of its labels the key
`build(label, cid, peer)` with value `timestamp = last_seen = now`.
The store keys are assumed unique, the reconciler's context live. -/
theorem claim_C1 (localPeerID : Str) (pullResult : Option Record) (now : GoTime)
    (st : Datastore) (notif : HandlerSync)
    (hP : notif.peer.id ≠ localPeerID)
    (hnodup : (st.map Prod.fst).Nodup) :
    ((∃ k v l, (k, v) ∈ st ∧
        ParseEnhancedLabelKey k = some (l, notif.refCid, notif.peer.id)) →
      (handleCIDProviderNotification false localPeerID pullResult now st notif).pulled =
        none ∧
      ∀ k v l m, (k, v) ∈ st →
        ParseEnhancedLabelKey k = some (l, notif.refCid, notif.peer.id) →
        decodeLabelMetadata v = some m →
        dsGet (handleCIDProviderNotification false localPeerID pullResult now st notif).store
          k = some (encodeLabelMetadata ⟨m.Timestamp, now⟩)) ∧
    ((∀ k v l, (k, v) ∈ st →
        ParseEnhancedLabelKey k ≠ some (l, notif.refCid, notif.peer.id)) →
      (handleCIDProviderNotification false localPeerID pullResult now st notif).pulled =
        some (notif.peer.id, notif.refCid) ∧
      ∀ r, pullResult = some r →
        ∀ lab ∈ GetLabelsFromRecord r,
          dsGet
            (handleCIDProviderNotification false localPeerID pullResult now st notif).store
            (BuildEnhancedLabelKey lab notif.refCid notif.peer.id) =
          some (encodeLabelMetadata ⟨now, now⟩)) := by
  unfold handleCIDProviderNotification
  rw [if_neg hP]
  constructor
  · rintro ⟨k0, v0, l0, hmem0, hp0⟩
    have hk0ne : k0 ≠ peerAddrsKey notif.peer.id := by
      intro he
      rw [he, parse_peerAddrsKey] at hp0
      cases hp0
    have hmem1 : (k0, v0) ∈ learnPeerAddrs st notif :=
      learnPeerAddrs_mem_of st notif hmem0 hk0ne
    have hc : hasRemoteRecordCached false (learnPeerAddrs st notif) notif.refCid
        notif.peer.id = true := cached_true_of_mem hmem1 hp0
    rw [if_pos hc]
    refine ⟨rfl, ?_⟩
    intro k v l m hmem hp hdec
    have hkne : k ≠ peerAddrsKey notif.peer.id := by
      intro he
      rw [he, parse_peerAddrsKey] at hp
      cases hp
    have hmem1' : (k, v) ∈ learnPeerAddrs st notif :=
      learnPeerAddrs_mem_of st notif hmem hkne
    obtain ⟨ns, hns, hkns⟩ := parse_keyInNamespace hp
    have hescan : (⟨ns, k, v⟩ : NamespaceEntry) ∈
        scanEntries (learnPeerAddrs st notif) namespaceNames :=
      mem_scanEntries_intro hmem1' hkns hns
    have hscannd : ((scanEntries (learnPeerAddrs st notif) namespaceNames).map
        NamespaceEntry.Key).Nodup :=
      scanEntries_keys_nodup (learnPeerAddrs_nodup notif hnodup) (by decide)
    simp only [updateRemoteLastSeen_false_eq]
    exact refresh_fold_get _ _ ⟨ns, k, v⟩ hescan hscannd hp hdec
  · intro hnone
    have hc : hasRemoteRecordCached false (learnPeerAddrs st notif) notif.refCid
        notif.peer.id = false := by
      rw [hasRemoteRecordCached_false_eq]
      rw [List.any_eq_false]
      intro e he
      cases hpe : ParseEnhancedLabelKey e.Key with
      | none => simp [hpe]
      | some x =>
          obtain ⟨l, kc, kp⟩ := x
          simp only [hpe]
          rw [Bool.and_eq_true, decide_eq_true_iff, decide_eq_true_iff]
          rintro ⟨rfl, rfl⟩
          obtain ⟨hmeme, -, -⟩ := mem_scanEntries_elim he
          rcases learnPeerAddrs_mem_elim hmeme with hin | heq
          · exact hnone _ _ _ hin hpe
          · rw [heq, parse_peerAddrsKey] at hpe
            cases hpe
    rw [if_neg (by rw [hc]; exact Bool.false_ne_true)]
    cases pullResult with
    | none =>
        refine ⟨rfl, ?_⟩
        intro r hr
        cases hr
    | some record =>
        dsimp only
        by_cases hemp : (GetLabelsFromRecord record).isEmpty
        · rw [if_pos hemp]
          refine ⟨rfl, ?_⟩
          intro r hr
          injection hr with hr
          subst hr
          intro lab hlab
          rw [List.isEmpty_iff.mp hemp] at hlab
          cases hlab
        · rw [if_neg hemp]
          refine ⟨rfl, ?_⟩
          intro r hr
          injection hr with hr
          subst hr
          intro lab hlab
          exact put_fold_get _ _ lab hlab

theorem claim_C8_witness :
    wResp ∈ (Search false "p0".data wStore wReq).1 ∧ wResp.peer.id ≠ "p0".data :=
  ⟨by decide, claim_C8 false "p0".data wStore wReq wResp (by decide)⟩

/-- A concrete refresh time for the C1 witness. -/
def wNow : GoTime := ⟨"2025-10-02T00:00:00Z".data⟩

/-- A concrete provider notification from the remote peer `p1`. -/
def wNotif : HandlerSync := ⟨⟨"p1".data, []⟩, "c1".data⟩

theorem claim_C1_witness :
    (handleCIDProviderNotification false "p0".data none wNow wStore wNotif).pulled = none ∧
    dsGet (handleCIDProviderNotification false "p0".data none wNow wStore wNotif).store
        "/skills/AI/c1/p1".data =
      some (encodeLabelMetadata ⟨⟨"2025-10-01T10:00:00Z".data⟩, wNow⟩) :=
  have h := (claim_C1 "p0".data none wNow wStore wNotif (by decide) (by decide)).1
    ⟨"/skills/AI/c1/p1".data, wMetaVal, "/skills/AI".data, by decide, by decide⟩
  ⟨h.1, h.2 "/skills/AI/c1/p1".data wMetaVal "/skills/AI".data
    ⟨⟨"2025-10-01T10:00:00Z".data⟩, ⟨"2025-10-01T10:00:05Z".data⟩⟩
    (by decide) (by decide) (by decide)⟩

end DirSpec

